import Mathlib

/-!
Verification of the use-graph reachability engine in `unused/unused.go`
(package `unused` of this repository).

The program builds a directed graph whose nodes are declared program
entities (plus a synthetic Root node), with two edge relations:
`uses` (edges appended to `node.uses` by `graph.use(used, by)`) and
`owns` (edges appended by `graph.see(obj, owner)`).  After the build,
`graph.color` marks every node reachable from Root over `uses` as `seen`,
`graph.results` marks `owns`-descendants of unseen nodes `quiet`, and
classifies the remaining nodes as Used (`seen`) or Unused
(neither `seen` nor `quiet`).

The shallow embedding below models nodes by natural-number ids, with id 0
playing the part of the Root node (`g.node(nil)` in the source).  A `uses`
edge is the pair `(by, used)`: in the source, `g.use(used, by)` appends
the node of `used` to `nBy.uses`, and `graph.color` follows the `uses`
lists.  An `owns` edge is the pair `(owner, owned)`.
-/

namespace UnusedGo

/-- Successors of node `v` over an edge list: the nodes appearing in
`v`'s `uses` (or `owns`) list.  Mirrors iterating `root.uses` in
`graph.color` (unused.go:325) and `n.owns` in `quieten` (unused.go:1213). -/
def succs (es : List (Nat × Nat)) (v : Nat) : List Nat :=
  (es.filter (fun e => e.1 == v)).map (fun e => e.2)

/-- Membership in `succs` is exactly edge membership. -/
theorem mem_succs {es : List (Nat × Nat)} {a b : Nat} :
    b ∈ succs es a ↔ (a, b) ∈ es := by
  simp only [succs, List.mem_map, List.mem_filter]
  constructor
  · rintro ⟨⟨x, y⟩, ⟨hmem, heq⟩, rfl⟩
    simp only [beq_iff_eq] at heq
    subst heq
    exact hmem
  · intro h
    exact ⟨(a, b), ⟨h, by simp⟩, rfl⟩

/-- All node ids mentioned by an edge list, together with the Root id 0,
without duplicates.  This is the universe the depth-first coloring can
ever visit. -/
def nodesOf (es : List (Nat × Nat)) : List Nat :=
  (0 :: es.flatMap (fun e => [e.1, e.2])).dedup

theorem root_mem_nodesOf (es : List (Nat × Nat)) : 0 ∈ nodesOf es := by
  simp [nodesOf]

theorem succs_subset_nodesOf {es : List (Nat × Nat)} {a b : Nat}
    (h : b ∈ succs es a) : b ∈ nodesOf es := by
  rw [mem_succs] at h
  simp only [nodesOf, List.mem_dedup, List.mem_cons, List.mem_flatMap]
  exact Or.inr ⟨(a, b), h, by simp⟩

/-- Number of universe nodes not yet marked seen; the measure showing the
fuel we hand to the embedded depth-first coloring is sufficient. -/
def unseenCount (es : List (Nat × Nat)) (s : List Nat) : Nat :=
  ((nodesOf es).filter (fun v => decide (v ∉ s))).length

/-- Fuel that is always sufficient for the coloring to reach a fixpoint:
one more than the size of the node universe. -/
def fuelOf (es : List (Nat × Nat)) : Nat :=
  (nodesOf es).length + 1

/-- Reachability over an edge list: the reflexive-transitive closure of
the single-edge step.  `graph.color` marks exactly the nodes reachable
from its argument. -/
inductive Reach (es : List (Nat × Nat)) : Nat → Nat → Prop
  | refl (a : Nat) : Reach es a a
  | head {a b c : Nat} : (a, b) ∈ es → Reach es b c → Reach es a c

theorem Reach.trans {es : List (Nat × Nat)} {a b c : Nat}
    (hab : Reach es a b) (hbc : Reach es b c) : Reach es a c := by
  induction hab with
  | refl => exact hbc
  | head h _ ih => exact Reach.head h (ih hbc)

theorem Reach.mono {es es' : List (Nat × Nat)} {a b : Nat}
    (hsub : ∀ e ∈ es, e ∈ es') (h : Reach es a b) : Reach es' a b := by
  induction h with
  | refl => exact Reach.refl _
  | head he _ ih => exact Reach.head (hsub _ he) ih

/-- Depth-first coloring, translated from `graph.color` (unused.go:320-328):

    func (g *graph) color(root *node) {
        if root.seen { return }
        root.seen = true
        for _, n := range root.uses { g.color(n) }
    }

The mutable per-node `seen` flag becomes an explicit list of seen ids
threaded through the recursion; the Go recursion terminates because
`seen` grows inside a finite node set, which the embedding expresses
with a fuel parameter (`fuelOf` is proven sufficient below). -/
def colorGo (es : List (Nat × Nat)) : Nat → List Nat → Nat → List Nat
  | 0, seen, _ => seen
  | fuel + 1, seen, root =>
    if root ∈ seen then seen
    else (succs es root).foldl (colorGo es fuel) (root :: seen)

/-- Coloring started from each root in turn, with an initially empty seen
set.  `graph.results` performs exactly `colorFold g.uses [0]` for the
Used coloring (a single call `g.color(g.Root)`), and the quieting loop
performs it over `g.owns` from every owned child of an unseen node. -/
def colorFold (es : List (Nat × Nat)) (roots : List Nat) : List Nat :=
  roots.foldl (colorGo es (fuelOf es)) []

theorem foldl_subset {f : List Nat → Nat → List Nat}
    (hf : ∀ s r, s ⊆ f s r) :
    ∀ (roots : List Nat) (s : List Nat), s ⊆ roots.foldl f s := by
  intro roots
  induction roots with
  | nil => intro s; exact fun _ h => h
  | cons r rest ih =>
    intro s
    exact (hf s r).trans (ih (f s r))

theorem colorGo_subset (es : List (Nat × Nat)) :
    ∀ (fuel : Nat) (s : List Nat) (r : Nat), s ⊆ colorGo es fuel s r := by
  intro fuel
  induction fuel with
  | zero => intro s r; exact fun _ h => h
  | succ f ih =>
    intro s r
    simp only [colorGo]
    by_cases hr : r ∈ s
    · simp [hr]
    · simp only [hr, if_false]
      exact (List.subset_cons_self r s).trans
        (foldl_subset (fun s' r' => ih s' r') (succs es r) (r :: s))

theorem colorGo_root_mem (es : List (Nat × Nat)) (fuel : Nat) (s : List Nat)
    (r : Nat) (hf : 1 ≤ fuel) : r ∈ colorGo es fuel s r := by
  cases fuel with
  | zero => omega
  | succ f =>
    simp only [colorGo]
    by_cases hr : r ∈ s
    · simp [hr]
    · simp only [hr, if_false]
      exact foldl_subset (fun s' r' => colorGo_subset es f s' r') _ _
        (List.mem_cons_self r s)

theorem unseenCount_mono {es : List (Nat × Nat)} {s s' : List Nat}
    (h : s ⊆ s') : unseenCount es s' ≤ unseenCount es s := by
  apply List.Sublist.length_le
  apply List.monotone_filter_right
  intro a ha
  simp only [decide_eq_true_eq] at ha ⊢
  exact fun hmem => ha (h hmem)

theorem unseenCount_lt {es : List (Nat × Nat)} {s : List Nat} {r : Nat}
    (hrU : r ∈ nodesOf es) (hrs : r ∉ s) :
    unseenCount es (r :: s) < unseenCount es s := by
  have hsub : List.Sublist ((nodesOf es).filter (fun v => decide (v ∉ r :: s)))
      ((nodesOf es).filter (fun v => decide (v ∉ s))) := by
    apply List.monotone_filter_right
    intro a ha
    simp only [decide_eq_true_eq, List.mem_cons] at ha ⊢
    exact fun hmem => ha (Or.inr hmem)
  refine lt_of_le_of_ne hsub.length_le (fun heq => ?_)
  have := hsub.eq_of_length heq
  have hr1 : r ∈ (nodesOf es).filter (fun v => decide (v ∉ s)) := by
    simp only [List.mem_filter, decide_eq_true_eq]
    exact ⟨hrU, hrs⟩
  rw [← this] at hr1
  simp [List.mem_filter] at hr1

theorem unseenCount_nil (es : List (Nat × Nat)) :
    unseenCount es [] = (nodesOf es).length := by
  simp [unseenCount]

theorem foldl_colorGo_roots (es : List (Nat × Nat)) (f : Nat) (hf : 1 ≤ f) :
    ∀ (roots s : List Nat) (x : Nat), x ∈ roots →
      x ∈ roots.foldl (colorGo es f) s := by
  intro roots
  induction roots with
  | nil => intro s x hx; cases hx
  | cons r rest ih =>
    intro s x hx
    rcases List.mem_cons.mp hx with rfl | hx
    · exact foldl_subset (fun s' r' => colorGo_subset es f s' r') rest _
        (colorGo_root_mem es f s x hf)
    · exact ih _ x hx

/-- Auxiliary fold step of the closure property: folding the coloring over
a list of roots preserves the invariant that every freshly marked node has
all its successors marked. -/
theorem colorGo_black_fold (es : List (Nat × Nat)) (f : Nat)
    (IH : ∀ (s : List Nat) (r : Nat), r ∈ nodesOf es →
      1 + unseenCount es s ≤ f →
      ∀ v ∈ colorGo es f s r, v ∉ s → ∀ w ∈ succs es v, w ∈ colorGo es f s r) :
    ∀ (roots s1 : List Nat), (∀ x ∈ roots, x ∈ nodesOf es) →
      1 + unseenCount es s1 ≤ f →
      ∀ v ∈ roots.foldl (colorGo es f) s1, v ∉ s1 →
        ∀ w ∈ succs es v, w ∈ roots.foldl (colorGo es f) s1 := by
  intro roots
  induction roots with
  | nil =>
    intro s1 _ _ v hv hv1
    exact absurd hv hv1
  | cons r rest ih =>
    intro s1 hroots hf v hv hv1 w hw
    simp only [List.foldl_cons] at hv ⊢
    by_cases hv2 : v ∈ colorGo es f s1 r
    · have hsucc := IH s1 r (hroots r (List.mem_cons_self r rest)) hf v hv2 hv1 w hw
      exact foldl_subset (fun s' r' => colorGo_subset es f s' r') rest _ hsucc
    · have hf2 : 1 + unseenCount es (colorGo es f s1 r) ≤ f :=
        le_trans (by
          have := @unseenCount_mono es s1 (colorGo es f s1 r)
            (colorGo_subset es f s1 r)
          omega) hf
      exact ih (colorGo es f s1 r)
        (fun x hx => hroots x (List.mem_cons_of_mem r hx)) hf2 v hv hv2 w hw

/-- Closure of the depth-first coloring: with sufficient fuel, every node
the coloring marks (beyond the initially seen ones) has all of its
successors marked too.  This is the invariant that makes `graph.color`
compute a set closed under the `uses` relation. -/
theorem colorGo_black (es : List (Nat × Nat)) :
    ∀ (fuel : Nat) (s : List Nat) (r : Nat), r ∈ nodesOf es →
      1 + unseenCount es s ≤ fuel →
      ∀ v ∈ colorGo es fuel s r, v ∉ s →
        ∀ w ∈ succs es v, w ∈ colorGo es fuel s r := by
  intro fuel
  induction fuel with
  | zero => intro s r _ hf; omega
  | succ f ih =>
    intro s r hrU hf v hv hvs w hw
    by_cases hr : r ∈ s
    · simp only [colorGo, hr, if_true] at hv
      exact absurd hv hvs
    · simp only [colorGo, hr, if_false] at hv ⊢
      have hlt : unseenCount es (r :: s) < unseenCount es s :=
        unseenCount_lt hrU hr
      have hf1 : 1 ≤ f := by omega
      have hf2 : 1 + unseenCount es (r :: s) ≤ f := by omega
      by_cases hvr : v = r
      · subst hvr
        exact foldl_colorGo_roots es f hf1 (succs es v) (v :: s) w hw
      · have hvrs : v ∉ r :: s := by
          simp only [List.mem_cons]
          exact fun h => h.elim hvr hvs
        exact colorGo_black_fold es f ih (succs es r) (r :: s)
          (fun x hx => succs_subset_nodesOf hx) hf2 v hv hvrs w hw

/-- Auxiliary fold step of soundness: folding the coloring over roots only
marks nodes reachable from one of the roots. -/
theorem colorGo_sound_fold (es : List (Nat × Nat)) (f : Nat)
    (IH : ∀ (s : List Nat) (r v : Nat), v ∈ colorGo es f s r →
      v ∈ s ∨ Reach es r v) :
    ∀ (roots s : List Nat) (v : Nat), v ∈ roots.foldl (colorGo es f) s →
      v ∈ s ∨ ∃ x ∈ roots, Reach es x v := by
  intro roots
  induction roots with
  | nil => intro s v hv; exact Or.inl hv
  | cons r rest ih =>
    intro s v hv
    simp only [List.foldl_cons] at hv
    rcases ih (colorGo es f s r) v hv with hin | ⟨x, hx, hreach⟩
    · rcases IH s r v hin with hin2 | hreach
      · exact Or.inl hin2
      · exact Or.inr ⟨r, List.mem_cons_self r rest, hreach⟩
    · exact Or.inr ⟨x, List.mem_cons_of_mem r hx, hreach⟩

/-- Soundness of the depth-first coloring: it never marks a node that is
not reachable from its starting node. -/
theorem colorGo_sound (es : List (Nat × Nat)) :
    ∀ (fuel : Nat) (s : List Nat) (r v : Nat), v ∈ colorGo es fuel s r →
      v ∈ s ∨ Reach es r v := by
  intro fuel
  induction fuel with
  | zero => intro s r v hv; exact Or.inl hv
  | succ f ih =>
    intro s r v hv
    by_cases hr : r ∈ s
    · simp only [colorGo, hr, if_true] at hv
      exact Or.inl hv
    · simp only [colorGo, hr, if_false] at hv
      rcases colorGo_sound_fold es f ih (succs es r) (r :: s) v hv with hin | ⟨x, hx, hreach⟩
      · rcases List.mem_cons.mp hin with rfl | hin2
        · exact Or.inr (Reach.refl v)
        · exact Or.inl hin2
      · exact Or.inr (Reach.head (mem_succs.mp hx) hreach)

theorem colorFold_roots_mem {es : List (Nat × Nat)} {roots : List Nat}
    {x : Nat} (hx : x ∈ roots) : x ∈ colorFold es roots :=
  foldl_colorGo_roots es (fuelOf es) (by simp [fuelOf]) roots [] x hx

theorem colorFold_closed {es : List (Nat × Nat)} {roots : List Nat}
    (hroots : ∀ x ∈ roots, x ∈ nodesOf es) :
    ∀ a ∈ colorFold es roots, ∀ b, (a, b) ∈ es → b ∈ colorFold es roots := by
  intro a ha b hab
  have hf : 1 + unseenCount es [] ≤ fuelOf es := by
    rw [unseenCount_nil, fuelOf]; omega
  exact colorGo_black_fold es (fuelOf es) (colorGo_black es (fuelOf es))
    roots [] hroots hf a ha (List.not_mem_nil a) b (mem_succs.mpr hab)

theorem colorFold_sound {es : List (Nat × Nat)} {roots : List Nat} {v : Nat}
    (hv : v ∈ colorFold es roots) : ∃ x ∈ roots, Reach es x v := by
  rcases colorGo_sound_fold es (fuelOf es) (colorGo_sound es (fuelOf es))
      roots [] v hv with hin | h
  · cases hin
  · exact h

theorem colorFold_reach_closed {es : List (Nat × Nat)} {roots : List Nat}
    (hroots : ∀ x ∈ roots, x ∈ nodesOf es) {a b : Nat}
    (ha : a ∈ colorFold es roots) (hreach : Reach es a b) :
    b ∈ colorFold es roots := by
  induction hreach with
  | refl => exact ha
  | head he _ ih => exact ih (colorFold_closed hroots _ ha _ he)

/-- The set of nodes marked `seen` by `graph.results` (unused.go:1208):
a single depth-first coloring from the Root node over the `uses` edges. -/
def seenOf (es : List (Nat × Nat)) : List Nat := colorFold es [0]

theorem seenOf_root (es : List (Nat × Nat)) : 0 ∈ seenOf es :=
  colorFold_roots_mem (List.mem_singleton.mpr rfl)

theorem seenOf_closed {es : List (Nat × Nat)} {a b : Nat}
    (hab : (a, b) ∈ es) (ha : a ∈ seenOf es) : b ∈ seenOf es :=
  colorFold_closed (fun x hx => by
    rcases List.mem_singleton.mp hx with rfl
    exact root_mem_nodesOf es) a ha b hab

theorem seenOf_sound {es : List (Nat × Nat)} {v : Nat}
    (hv : v ∈ seenOf es) : Reach es 0 v := by
  rcases colorFold_sound hv with ⟨x, hx, hreach⟩
  rcases List.mem_singleton.mp hx with rfl
  exact hreach

theorem seenOf_reach_closed {es : List (Nat × Nat)} {a b : Nat}
    (ha : a ∈ seenOf es) (hreach : Reach es a b) : b ∈ seenOf es :=
  colorFold_reach_closed (fun x hx => by
    rcases List.mem_singleton.mp hx with rfl
    exact root_mem_nodesOf es) ha hreach

theorem seenOf_complete {es : List (Nat × Nat)} {v : Nat}
    (hreach : Reach es 0 v) : v ∈ seenOf es :=
  seenOf_reach_closed (seenOf_root es) hreach

/-- Kind of a declared object, mirroring the `types.Object` variants that
`graph.results` (unused.go:1228-1239) distinguishes: only `*types.Var`
gets special treatment, every other kind falls through the switch. -/
inductive OKind where
  | varK
  | constK
  | typeK
  | funcK
deriving DecidableEq, Repr

/-- Attributes of a graph node that `graph.results` inspects:
`name` and `isField` model `obj.Name()` and `obj.IsField()` for
variables, `isLocal` models `obj.Parent() != obj.Pkg().Scope()`, and
`samePkg` models `n.obj.Pkg() == g.pass.Pkg`. -/
structure GNode where
  id : Nat
  kind : OKind
  name : String
  isField : Bool
  isLocal : Bool
  samePkg : Bool
deriving DecidableEq, Repr

/-- The frozen graph that `graph.results` consumes: the node table
(`g.Nodes`, excluding Root) and the two edge relations.  A `uses` entry
`(a, b)` means node `a`'s `uses` list contains `b` (emitted by
`g.use(b, a)`); an `owns` entry `(p, c)` means `p`'s `owns` list
contains `c` (emitted by `g.see(c, p)`).  Root is id 0 and has no entry
in `nodes`, exactly as `g.Root` is absent from `g.Nodes`. -/
structure Graph where
  nodes : List GNode
  uses : List (Nat × Nat)
  owns : List (Nat × Nat)

/-- Starting points of the quieting pass (unused.go:1218-1225): for every
node that is not `seen`, each of its directly owned nodes. -/
def quietStarts (g : Graph) (seen : List Nat) : List Nat :=
  (g.nodes.filter (fun n => decide (n.id ∉ seen))).flatMap
    (fun n => succs g.owns n.id)

/-- The set of nodes marked `quiet` by `graph.results`: `quieten` is
called on every owned child of an unseen node and recursively marks the
whole `owns`-subtree.  `quieten` carries no visited set (it terminates
because `owns` is acyclic for graphs the builder produces); the embedded
coloring computes the same set of marked nodes. -/
def quietOf (g : Graph) (seen : List Nat) : List Nat :=
  colorFold g.owns (quietStarts g seen)

/-- Filter deciding whether `graph.results` classifies a node at all,
mirroring the `continue` branches of the final loop (unused.go:1228-1243):
unnamed fields (interface embedding placeholders) are skipped, local
non-field variables are skipped, and nodes of other packages are
skipped. -/
def keepNode (n : GNode) : Bool :=
  (match n.kind with
   | OKind.varK => !(n.name == "" && n.isField) && !(!n.isField && n.isLocal)
   | _ => true) && n.samePkg

/-- Final classification, translated from `graph.results`
(unused.go:1207-1252): color from Root over `uses`, quieten the
`owns`-descendants of unseen nodes, then report each kept node as Used if
`seen`, as Unused if neither `seen` nor `quiet`. -/
def results (g : Graph) : List Nat × List Nat :=
  let seen := seenOf g.uses
  let quiet := quietOf g seen
  let kept := g.nodes.filter keepNode
  ((kept.filter (fun n => decide (n.id ∈ seen))).map (fun n => n.id),
   (kept.filter (fun n => decide (n.id ∉ seen ∧ n.id ∉ quiet))).map (fun n => n.id))

theorem mem_results_used {g : Graph} {x : Nat} :
    x ∈ (results g).1 ↔
      ∃ n ∈ g.nodes, keepNode n = true ∧ n.id = x ∧ x ∈ seenOf g.uses := by
  simp only [results, List.mem_map, List.mem_filter, decide_eq_true_eq]
  constructor
  · rintro ⟨n, ⟨⟨hmem, hkeep⟩, hseen⟩, rfl⟩
    exact ⟨n, hmem, hkeep, rfl, hseen⟩
  · rintro ⟨n, hmem, hkeep, rfl, hseen⟩
    exact ⟨n, ⟨⟨hmem, hkeep⟩, hseen⟩, rfl⟩

theorem mem_results_unused {g : Graph} {x : Nat} :
    x ∈ (results g).2 ↔
      ∃ n ∈ g.nodes, keepNode n = true ∧ n.id = x ∧
        x ∉ seenOf g.uses ∧ x ∉ quietOf g (seenOf g.uses) := by
  simp only [results, List.mem_map, List.mem_filter, decide_eq_true_eq]
  constructor
  · rintro ⟨n, ⟨⟨hmem, hkeep⟩, hcl⟩, rfl⟩
    exact ⟨n, hmem, hkeep, rfl, hcl⟩
  · rintro ⟨n, hmem, hkeep, rfl, hcl⟩
    exact ⟨n, ⟨⟨hmem, hkeep⟩, hcl⟩, rfl⟩

theorem quietStarts_subset_nodesOf {g : Graph} {seen : List Nat} {x : Nat}
    (hx : x ∈ quietStarts g seen) : x ∈ nodesOf g.owns := by
  simp only [quietStarts, List.mem_flatMap] at hx
  rcases hx with ⟨n, _, hsucc⟩
  exact succs_subset_nodesOf hsucc

/-- Every proper `owns`-descendant of an unseen node is quiet. -/
theorem quiet_of_unseen_owner {g : Graph} {seen : List Nat} {n : GNode}
    (hn : n ∈ g.nodes) (hunseen : n.id ∉ seen) {c v : Nat}
    (hc : (n.id, c) ∈ g.owns) (hreach : Reach g.owns c v) :
    v ∈ quietOf g seen := by
  have hstart : c ∈ quietStarts g seen := by
    simp only [quietStarts, List.mem_flatMap, List.mem_filter, decide_eq_true_eq]
    exact ⟨n, ⟨hn, hunseen⟩, mem_succs.mpr hc⟩
  exact colorFold_reach_closed (fun x hx => quietStarts_subset_nodesOf hx)
    (colorFold_roots_mem hstart) hreach

/-- Whether a declared name is exported, translated from
`token.IsExported`: the first character of the name is upper-case (the
source uses the Unicode upper-case test; the names in this development
are ASCII, where `Char.isUpper` agrees with it).  An empty name is not
exported. -/
def isExported (s : String) : Bool :=
  match s.data with
  | [] => false
  | c :: _ => c.isUpper

/-- Loop body of the constant-group ring construction
(unused.go:814-831): walk the flattened names of one lexical group,
skipping names equal to the blank identifier, remembering the first and
previous non-blank objects, and emitting `g.use(obj, prev)` — the edge
`(prev, obj)` — for every non-blank object after the first.  Go keeps
`first`, `prev` and `last` as separate variables, but `prev` and `last`
are assigned identically on every iteration, so the state is the pair
`(first, prev)`. -/
def ringAux : List (Nat × String) → Option (Nat × Nat) → List (Nat × Nat) →
    Option (Nat × Nat) × List (Nat × Nat)
  | [], st, acc => (st, acc)
  | (id, nm) :: rest, st, acc =>
    if nm = "_" then ringAux rest st acc
    else
      match st with
      | none => ringAux rest (some (id, id)) acc
      | some (first, prev) => ringAux rest (some (first, id)) (acc ++ [(prev, id)])

/-- Use edges emitted for one lexical constant group
(unused.go:807-835): the chain edges from `ringAux` plus, when the group
has at least two non-blank members (`first != last`), the closing edge
`g.use(first, last)` from the last member back to the first. -/
def ringEdges (group : List (Nat × String)) : List (Nat × Nat) :=
  match ringAux group none [] with
  | (none, acc) => acc
  | (some (first, lastO), acc) =>
    if first ≠ lastO then acc ++ [(lastO, first)] else acc

/-- Ids of the non-blank members of a constant group, in order. -/
def ysOf (group : List (Nat × String)) : List Nat :=
  (group.filter (fun p => !(p.2 == "_"))).map (fun p => p.1)

/-- Edges linking consecutive elements of a list. -/
def chainEdges : List Nat → List (Nat × Nat)
  | [] => []
  | [_] => []
  | a :: b :: t => (a, b) :: chainEdges (b :: t)

theorem chainEdges_cons2 (a b : Nat) (t : List Nat) :
    chainEdges (a :: b :: t) = (a, b) :: chainEdges (b :: t) := rfl

theorem ringAux_some (f : Nat) :
    ∀ (group : List (Nat × String)) (p : Nat) (acc : List (Nat × Nat)),
      ringAux group (some (f, p)) acc =
        (some (f, (ysOf group).getLastD p), acc ++ chainEdges (p :: ysOf group)) := by
  intro group
  induction group with
  | nil => intro p acc; simp [ringAux, ysOf, chainEdges]
  | cons hd rest ih =>
    intro p acc
    rcases hd with ⟨id, nm⟩
    by_cases hnm : nm = "_"
    · subst hnm
      have hys : ysOf ((id, "_") :: rest) = ysOf rest := by simp [ysOf]
      have hstep : ringAux ((id, "_") :: rest) (some (f, p)) acc =
          ringAux rest (some (f, p)) acc := by simp [ringAux]
      rw [hstep, ih p acc, hys]
    · have hys : ysOf ((id, nm) :: rest) = id :: ysOf rest := by
        simp [ysOf, hnm]
      have hstep : ringAux ((id, nm) :: rest) (some (f, p)) acc =
          ringAux rest (some (f, id)) (acc ++ [(p, id)]) := by
        simp [ringAux, hnm]
      rw [hstep, ih id (acc ++ [(p, id)]), hys, List.getLastD_cons,
        chainEdges_cons2, List.append_assoc]
      rfl

theorem ringAux_none :
    ∀ (group : List (Nat × String)) (acc : List (Nat × Nat)),
      ringAux group none acc =
        (match ysOf group with
         | [] => (none, acc)
         | y :: rest => (some (y, rest.getLastD y), acc ++ chainEdges (y :: rest))) := by
  intro group
  induction group with
  | nil => intro acc; simp [ringAux, ysOf]
  | cons hd rest ih =>
    intro acc
    rcases hd with ⟨id, nm⟩
    by_cases hnm : nm = "_"
    · subst hnm
      have hys : ysOf ((id, "_") :: rest) = ysOf rest := by simp [ysOf]
      have hstep : ringAux ((id, "_") :: rest) none acc =
          ringAux rest none acc := by simp [ringAux]
      rw [hstep, ih acc, hys]
    · have hys : ysOf ((id, nm) :: rest) = id :: ysOf rest := by
        simp [ysOf, hnm]
      have hstep : ringAux ((id, nm) :: rest) none acc =
          ringAux rest (some (id, id)) acc := by
        simp [ringAux, hnm]
      rw [hstep, ringAux_some id rest id acc, hys]

theorem ringEdges_eq_nil {group : List (Nat × String)}
    (h : ysOf group = []) : ringEdges group = [] := by
  unfold ringEdges
  rw [ringAux_none group [], h]

theorem ringEdges_eq_cons {group : List (Nat × String)} {y : Nat}
    {rest : List Nat} (h : ysOf group = y :: rest) :
    ringEdges group = chainEdges (y :: rest) ++
      (if y ≠ rest.getLastD y then [(rest.getLastD y, y)] else []) := by
  unfold ringEdges
  rw [ringAux_none group [], h]
  by_cases hne : y = rest.getLastD y
  · simp only [List.nil_append]
    rw [if_neg (fun hcon => hcon hne), if_neg (fun hcon => hcon hne),
      List.append_nil]
  · simp only [List.nil_append]
    rw [if_pos hne, if_pos hne]

theorem ysOf_filter (group : List (Nat × String)) :
    ysOf (group.filter (fun p => !(p.2 == "_"))) = ysOf group := by
  simp [ysOf, List.filter_filter]

/-- Blank members neither join nor break the ring: the emitted edges are
those of the group with blank members removed. -/
theorem ringEdges_filter_blank (group : List (Nat × String)) :
    ringEdges group = ringEdges (group.filter (fun p => !(p.2 == "_"))) := by
  cases hys : ysOf group with
  | nil => rw [ringEdges_eq_nil hys, ringEdges_eq_nil (by rw [ysOf_filter, hys])]
  | cons y rest =>
    rw [ringEdges_eq_cons hys, ringEdges_eq_cons (by rw [ysOf_filter, hys])]

theorem chain_reach_from_head :
    ∀ (ys : List Nat) (x z : Nat), z ∈ x :: ys →
      Reach (chainEdges (x :: ys)) x z := by
  intro ys
  induction ys with
  | nil =>
    intro x z hz
    rcases List.mem_singleton.mp hz with rfl
    exact Reach.refl z
  | cons b t ih =>
    intro x z hz
    rw [chainEdges_cons2]
    rcases List.mem_cons.mp hz with rfl | hz2
    · exact Reach.refl z
    · exact Reach.head (List.mem_cons_self _ _)
        (Reach.mono (fun e he => List.mem_cons_of_mem _ he) (ih b z hz2))

theorem chain_reach_to_last :
    ∀ (ys : List Nat) (x z : Nat), z ∈ x :: ys →
      Reach (chainEdges (x :: ys)) z (ys.getLastD x) := by
  intro ys
  induction ys with
  | nil =>
    intro x z hz
    rcases List.mem_singleton.mp hz with rfl
    exact Reach.refl z
  | cons b t ih =>
    intro x z hz
    rw [List.getLastD_cons, chainEdges_cons2]
    rcases List.mem_cons.mp hz with rfl | hz2
    · exact Reach.head (List.mem_cons_self _ _)
        (Reach.mono (fun e he => List.mem_cons_of_mem _ he)
          (ih b b (List.mem_cons_self b t)))
    · exact Reach.mono (fun e he => List.mem_cons_of_mem _ he) (ih b z hz2)

/-- Ring connectivity: any non-blank member of a constant group reaches
any other over the emitted ring edges. -/
theorem ring_connect {group : List (Nat × String)} {i j : Nat}
    (hi : i ∈ ysOf group) (hj : j ∈ ysOf group) :
    Reach (ringEdges group) i j := by
  cases hys : ysOf group with
  | nil => rw [hys] at hi; cases hi
  | cons y rest =>
    rw [hys] at hi hj
    rw [ringEdges_eq_cons hys]
    have hchain : ∀ {u v : Nat}, Reach (chainEdges (y :: rest)) u v →
        Reach (chainEdges (y :: rest) ++
          (if y ≠ rest.getLastD y then [(rest.getLastD y, y)] else [])) u v :=
      fun h => Reach.mono (fun e he => List.mem_append_left _ he) h
    have hToLast := hchain (chain_reach_to_last rest y i hi)
    have hFromHead := hchain (chain_reach_from_head rest y j hj)
    have hLj : Reach (chainEdges (y :: rest) ++
        (if y ≠ rest.getLastD y then [(rest.getLastD y, y)] else []))
        (rest.getLastD y) j := by
      rcases eq_or_ne y (rest.getLastD y) with hy | hy
      · exact Eq.subst (motive := fun t => Reach (chainEdges (y :: rest) ++
          (if y ≠ rest.getLastD y then [(rest.getLastD y, y)] else [])) t j)
          hy hFromHead
      · refine Reach.head (List.mem_append_right _ ?_) hFromHead
        rw [if_pos hy]
        exact List.mem_singleton.mpr rfl
    exact hToLast.trans hLj

theorem mem_ysOf {group : List (Nat × String)} {i : Nat} {ni : String}
    (h : (i, ni) ∈ group) (hni : ni ≠ "_") : i ∈ ysOf group := by
  simp only [ysOf, List.mem_map, List.mem_filter]
  exact ⟨(i, ni), ⟨h, by simp [hni]⟩, rfl⟩

/-- A method of a named type, with the data `isNoCopyType` inspects:
its name and the lengths of its parameter and result tuples. -/
structure MethodD where
  name : String
  nParams : Nat
  nResults : Nat
deriving DecidableEq, Repr

/-- Structural model of the `types.Type` shapes the verified fragments
inspect.  A struct type carries the ids of its field objects; a named
type carries its method list and its underlying type; the remaining
constructors stand for pointers, `unsafe.Pointer`, and every other
type. -/
inductive Ty where
  | structT (fields : List Nat)
  | namedT (methods : List MethodD) (under : Ty)
  | ptrT (elem : Ty)
  | unsafePtrT
  | basicT
deriving DecidableEq, Repr

/-- Underlying type, as in `types.Type.Underlying`: resolve named types
to their (non-named) underlying type; every other type is its own
underlying type. -/
def underlyingT : Ty → Ty
  | Ty.namedT _ u => underlyingT u
  | t => t

/-- Pointer stripping, translated from `typeutil.Dereference`: if the
underlying type is a pointer, its element type, otherwise the type
itself. -/
def derefT (t : Ty) : Ty :=
  match underlyingT t with
  | Ty.ptrT e => e
  | _ => t

/-- Core type, as used by `graph.read` at conversions
(`typeutil.CoreType`).  For the types modelled here (which contain no
type parameters) the core type is the underlying type. -/
def coreType (t : Ty) : Ty := underlyingT t

/-- Translated from `isNoCopyType` (unused.go:1260-1285): a named type
whose underlying type is a struct with no fields and that has exactly
one method, named `Lock`, with no parameters and no results. -/
def isNoCopyType (typ : Ty) : Bool :=
  match underlyingT typ with
  | Ty.structT fs =>
    if fs.length != 0 then false
    else
      match typ with
      | Ty.namedT ms _ =>
        match ms with
        | [m] =>
          if m.name != "Lock" then false
          else if m.nParams != 0 || m.nResults != 0 then false
          else true
        | _ => false
      | _ => false
  | _ => false

/-- Translated from `assert` (unused.go:149-153): a failed assertion
panics; the embedding surfaces the panic as an error value. -/
def assertGo (b : Bool) : Except String Unit :=
  if b then Except.ok () else Except.error "failed assertion"

/-- Conversion handling, translated from the tail of the
`ast.CallExpr` case of `graph.read` (unused.go:649-688) for a
single-argument non-variadic call: after stripping pointers and taking
core types, if both sides are structs assert equal field counts and mark
field `i` of each side used by field `i` of the other
(`g.use(stDst.Field(i), stSrc.Field(i))` gives the edge
`(srcField, dstField)` and vice versa); if one side is a struct and the
other `unsafe.Pointer`, mark every field of the struct used by the
converting context `byId`. -/
def convEdges (byId : Nat) (dst src : Ty) : Except String (List (Nat × Nat)) :=
  let tSrc := coreType (derefT src)
  let tDst := coreType (derefT dst)
  match tSrc, tDst with
  | Ty.structT fs, Ty.structT fd =>
    match assertGo (fd.length == fs.length) with
    | Except.error e => Except.error e
    | Except.ok _ =>
      Except.ok ((List.zip fs fd).flatMap (fun p => [(p.1, p.2), (p.2, p.1)]))
  | Ty.structT fs, Ty.unsafePtrT => Except.ok (fs.map (fun f => (byId, f)))
  | Ty.unsafePtrT, Ty.structT fd => Except.ok (fd.map (fun f => (byId, f)))
  | _, _ => Except.ok []

/-- A named (non-embedded) field of a named struct type: its object id,
name, and type. -/
structure FieldD where
  id : Nat
  name : String
  ty : Ty
deriving Repr

/-- Use edges emitted by `graph.namedType` for one named field of a
named struct type (unused.go:1180-1199): blank fields and exported
fields are used by the owning type, and fields of no-copy sentinel type
are used by the owning type.  The read of the field's declared type
(rule 7.2) targets type objects that are not part of this model. -/
def namedFieldUses (typId : Nat) (f : FieldD) : List (Nat × Nat) :=
  (if f.name == "_" then [(typId, f.id)]
   else if isExported f.name then [(typId, f.id)]
   else []) ++
  (if isNoCopyType f.ty then [(typId, f.id)] else [])

/-- Owns edge emitted by `g.see(obj, typ)` for a named field
(unused.go:1183): the owning type owns the field. -/
def namedFieldOwns (typId : Nat) (f : FieldD) : List (Nat × Nat) :=
  [(typId, f.id)]

/-- Use edges emitted by the per-name part of the `token.CONST` branch of
`graph.decl` (unused.go:789-804), ignoring the reads of the declared
type and initializer: a blank-named constant is used by the enclosing
declaration context `byId` (`g.use(obj, by)`), an exported package-level
constant is used by Root (`g.use(obj, nil)`). -/
def constNameEdges (byId : Nat) (id : Nat) (name : String)
    (isGlobalO : Bool) : List (Nat × Nat) :=
  if name == "_" then [(byId, id)]
  else if isExported name && isGlobalO then [(0, id)]
  else []

/-- The parts of an `ast.FuncDecl` that the root-edge logic of
`graph.decl` (unused.go:902-940) inspects: the declared name, whether a
receiver is present (method vs function), the package name and path,
whether the name is in the runtime-function table (`runtimeFuncs`,
defined in a sibling file of the package), and whether the doc comment
carries a `//go:cgo_export_` directive. -/
structure FuncDeclD where
  name : String
  hasRecv : Bool
  pkgName : String
  pkgPath : String
  isRuntimeFunc : Bool
  hasCgoExportDoc : Bool
deriving Repr

/-- Whether the `ast.FuncDecl` branch of `graph.decl`
(unused.go:902-940) emits a Root use edge (`g.use(obj, nil)`) for the
declared function or method: the if/else-if chain of rules 1.2, 1.5,
1.7 and 9.8, plus the independent blank-identifier rule 9.9 and the cgo
export rule 1.6. -/
def funcDeclRootEdge (d : FuncDeclD) : Bool :=
  (if isExported d.name then !d.hasRecv
   else if d.name == "init" then true
   else if d.name == "main" && d.pkgName == "main" then true
   else if d.pkgPath == "runtime" && d.isRuntimeFunc then true
   else false)
  || d.name == "_"
  || d.hasCgoExportDoc

/-- Whether the `token.CONST` branch of `graph.decl` (unused.go:798-803)
emits a Root use edge for a constant: blank constants are used by the
enclosing context instead, otherwise exported package-level constants
get the Root edge. -/
def constDeclRootEdge (name : String) (isGlobalO : Bool) : Bool :=
  if name == "_" then false else isExported name && isGlobalO

/-- Whether the `token.TYPE` branch of `graph.decl` (unused.go:845-848)
emits a Root use edge for a named type (rule 1.1). -/
def typeDeclRootEdge (name : String) (isGlobalO : Bool) : Bool :=
  isExported name && isGlobalO

/-- Whether the `token.VAR` branch of `graph.decl` (unused.go:886-889)
emits a Root use edge for a variable (rule 1.3). -/
def varDeclRootEdge (name : String) (isGlobalO : Bool) : Bool :=
  isExported name && isGlobalO

/-- The object attributes `graph.read`, `graph.write` and `graph.use`
inspect for an identifier's resolved object: whether it belongs to the
analyzed package (`used.Pkg() != g.pass.Pkg` makes `use` drop the
edge), whether it is package-level (`isGlobal`), and whether the file
containing its declaration position ends in `_test.go`. -/
structure ObjInfo where
  samePkg : Bool := true
  isGlobal : Bool := false
  declFileTest : Bool := false
deriving Repr

/-- Resolution context: object attributes per object id. -/
abbrev Ctx := Nat → ObjInfo

/-- Translated from `graph.use` (unused.go:306-318): record the edge
`by.uses += used` unless the used object belongs to another package.
(The `ourIsIrrelevant` check drops package names, which do not occur as
objects in this model.) -/
def useE (ctx : Ctx) (used byId : Nat) : List (Nat × Nat) :=
  if (ctx used).samePkg then [(byId, used)] else []

/-- The expression forms accepted by `graph.write` (unused.go:695-737)
and handled by `graph.read` along the way.  A selector carries its
resolved `types.Selection` when present: the ids of the implicit
embedded fields on the path and the id of the final object
(`Selections` lookup can fail for qualified identifiers, hence the
`Option`).  Identifiers carry their resolved object id. -/
inductive WExpr where
  | ident (obj : Nat)
  | sel (x : WExpr) (selData : Option (List Nat × Nat))
  | index (x idx : WExpr)
  | star (x : WExpr)
  | paren (x : WExpr)
  | lit

/-- Translated from `graph.readSelection` (unused.go:751-762): use every
implicit embedded field on the selection path, then the selected
object. -/
def readSelectionE (ctx : Ctx) (path : List Nat) (finObj byId : Nat) :
    List (Nat × Nat) :=
  path.flatMap (fun fld => useE ctx fld byId) ++ useE ctx finObj byId

/-- The edges `graph.read` (unused.go:483-693) emits for the expression
forms of `WExpr`: identifiers use their object; selectors read their
operand and the resolved selection (`graph.readSelectorExpr`,
unused.go:740-749); index expressions read operand and index; star and
paren read the operand; literals emit nothing. -/
def readE (ctx : Ctx) : WExpr → Nat → List (Nat × Nat)
  | WExpr.ident obj, byId => useE ctx obj byId
  | WExpr.sel x sd, byId =>
    readE ctx x byId ++
      (match sd with
       | none => []
       | some (path, finObj) => readSelectionE ctx path finObj byId)
  | WExpr.index x i, byId => readE ctx x byId ++ readE ctx i byId
  | WExpr.star x, byId => readE ctx x byId
  | WExpr.paren x, byId => readE ctx x byId
  | WExpr.lit, _ => []

/-- Translated from `graph.write` (unused.go:695-737): an identifier
target emits a use edge only when the file of the object's declaration
position ends in `_test.go` and the object is package-level
(rules 4.9/9.7); index targets read their operand and index; selector
targets are reads (writing to a field is a use, unused.go:721-726);
star targets read the operand; parenthesized targets recurse; any other
target form hits `lint.ExhaustiveTypeSwitch`, surfaced as an error. -/
def writeE (ctx : Ctx) : WExpr → Nat → Except String (List (Nat × Nat))
  | WExpr.ident obj, byId =>
    Except.ok
      (if (ctx obj).declFileTest then
        (if (ctx obj).isGlobal then useE ctx obj byId else [])
      else [])
  | WExpr.index x i, byId => Except.ok (readE ctx x byId ++ readE ctx i byId)
  | WExpr.sel x sd, byId => Except.ok (readE ctx (WExpr.sel x sd) byId)
  | WExpr.star x, byId => Except.ok (readE ctx x byId)
  | WExpr.paren x, byId => writeE ctx x byId
  | WExpr.lit, _ => Except.error "unhandled write target"

/-- A kept node that is seen is reported Used. -/
theorem used_of_seen_kept {g : Graph} {n : GNode} (hn : n ∈ g.nodes)
    (hkeep : keepNode n = true) (hseen : n.id ∈ seenOf g.uses) :
    n.id ∈ (results g).1 :=
  mem_results_used.mpr ⟨n, hn, hkeep, rfl, hseen⟩

/-- A quiet node that is not seen appears in neither output list. -/
theorem not_reported_of_quiet_unseen {g : Graph} {x : Nat}
    (hq : x ∈ quietOf g (seenOf g.uses)) (hns : x ∉ seenOf g.uses) :
    x ∉ (results g).1 ∧ x ∉ (results g).2 := by
  constructor
  · intro hmem
    rcases mem_results_used.mp hmem with ⟨n, _, _, rfl, hseen⟩
    exact hns hseen
  · intro hmem
    rcases mem_results_unused.mp hmem with ⟨n, _, _, rfl, _, hnq⟩
    exact hnq hq

/-- Witness graph for the reachability-closure claim: Root uses function
1, which uses function 2. -/
def gW1 : Graph :=
  ⟨[⟨1, OKind.funcK, "f", false, false, true⟩,
    ⟨2, OKind.funcK, "g", false, false, true⟩],
   [(0, 1), (1, 2)], []⟩

/-- C1: for every pair of entities A and B in the final graph, if a use
edge A uses B exists and A is classified Used by the analysis, then B is
classified Used: the `seen` coloring computed by the depth-first walk
from Root is closed under the `uses` relation, so the target of a use
edge out of a Used node is seen, and is itself reported Used whenever it
is a node the classification reports at all. -/
theorem claim_C1 (g : Graph) (a b : Nat) (hedge : (a, b) ∈ g.uses)
    (ha : a ∈ (results g).1) :
    b ∈ seenOf g.uses ∧
      (∀ nb ∈ g.nodes, nb.id = b → keepNode nb = true → b ∈ (results g).1) := by
  have haseen : a ∈ seenOf g.uses := by
    rcases mem_results_used.mp ha with ⟨n, _, _, rfl, hseen⟩
    exact hseen
  have hb : b ∈ seenOf g.uses := seenOf_closed hedge haseen
  exact ⟨hb, fun nb hnb hid hkeep =>
    mem_results_used.mpr ⟨nb, hnb, hkeep, hid, hb⟩⟩

/-- Witness for C1 on the concrete graph `gW1`: node 1 is Used and uses
node 2, hence node 2 is Used. -/
theorem claim_C1_witness : (2 : Nat) ∈ (results gW1).1 := by
  have h := claim_C1 gW1 1 2 (by decide) (by decide)
  exact h.2 ⟨2, OKind.funcK, "g", false, false, true⟩ (by decide) rfl (by decide)

/-- Counterexample graph for C2 and witness graph for C10, assembled from
the builder rules for this unit (each node id in brackets):

    package pkg
    type a struct { x int }            // [1] with field x [2]
    type B struct { y int }            // [3] with field y [4], exported
    func f() B { var v a; return B(v) }  // [5], with local v [7]
    func G(b B) int { return b.y }       // [6], exported, param b [8]

Use edges: Root uses exported B (0,3) and exported G (0,6); G uses its
parameter (6,8) which uses its type B (8,3); G reads b.y (6,4); v uses
its type a (7,1); f reads the conversion operand and converted-to type
(5,3) (5,7); the conversion B(v) links the fields (2,4) and (4,2)
(`convEdges`, see `claim_C2_cex`).  Owns edges: a owns x, B owns y, f
owns v, G owns b.  Node 2 (field x) is reachable through the conversion
link from the reachable field y, yet quiet because its owner a is
unreachable. -/
def gCquiet : Graph :=
  ⟨[⟨1, OKind.typeK, "a", false, false, true⟩,
    ⟨2, OKind.varK, "x", true, false, true⟩,
    ⟨3, OKind.typeK, "B", false, false, true⟩,
    ⟨4, OKind.varK, "y", true, false, true⟩,
    ⟨5, OKind.funcK, "f", false, false, true⟩,
    ⟨6, OKind.funcK, "G", false, false, true⟩,
    ⟨7, OKind.varK, "v", false, true, true⟩,
    ⟨8, OKind.varK, "b", false, true, true⟩],
   [(0, 3), (0, 6), (6, 8), (8, 3), (6, 4), (7, 1), (5, 3), (5, 7),
    (2, 4), (4, 2)],
   [(1, 2), (3, 4), (5, 7), (6, 8)]⟩

/-- C10: a node reachable from Root is reported Used even if it was also
marked quiet (the quiet flag suppresses reporting only of nodes that are
not seen), so quieting never removes a reachable entity from Used. -/
theorem claim_C10 :
    (∀ (g : Graph) (n : GNode), n ∈ g.nodes → keepNode n = true →
      n.id ∈ seenOf g.uses → n.id ∈ (results g).1) ∧
    (∀ (g : Graph) (x : Nat), x ∈ quietOf g (seenOf g.uses) →
      x ∉ seenOf g.uses → x ∉ (results g).1 ∧ x ∉ (results g).2) :=
  ⟨fun _ _ hn hkeep hseen => used_of_seen_kept hn hkeep hseen,
   fun _ _ hq hns => not_reported_of_quiet_unseen hq hns⟩

/-- Witness for C10 on `gCquiet`: node 2 is both seen and quiet there,
and is reported Used. -/
theorem claim_C10_witness : (2 : Nat) ∈ (results gCquiet).1 :=
  claim_C10.1 gCquiet ⟨2, OKind.varK, "x", true, false, true⟩
    (by decide) (by decide) (by decide)

/-- C9: under the precondition that a struct-to-struct conversion has
equal field counts on both sides, the assertion in the conversion branch
of `graph.read` passes and the edges are produced; when the precondition
is violated the branch aborts with the assertion failure instead of
producing edges. -/
theorem claim_C9 :
    (∀ (byId : Nat) (dst src : Ty) (fs fd : List Nat),
      coreType (derefT src) = Ty.structT fs →
      coreType (derefT dst) = Ty.structT fd →
      fs.length = fd.length →
      convEdges byId dst src =
        Except.ok ((List.zip fs fd).flatMap (fun p => [(p.1, p.2), (p.2, p.1)]))) ∧
    (∀ (byId : Nat) (dst src : Ty) (fs fd : List Nat),
      coreType (derefT src) = Ty.structT fs →
      coreType (derefT dst) = Ty.structT fd →
      fs.length ≠ fd.length →
      convEdges byId dst src = Except.error "failed assertion") := by
  constructor
  · intro byId dst src fs fd hs hd hlen
    simp only [convEdges, hs, hd, assertGo, hlen, beq_self_eq_true, if_true]
  · intro byId dst src fs fd hs hd hlen
    have hne : (fd.length == fs.length) = false := by
      simp [Ne.symm hlen]
    simp only [convEdges, hs, hd, assertGo, hne, Bool.false_eq_true, if_false]

/-- Witness for C9: a two-field conversion succeeds with the pairwise
edges; a mismatched conversion aborts. -/
theorem claim_C9_witness :
    convEdges 9 (Ty.structT [3, 4]) (Ty.structT [1, 2]) =
        Except.ok [(1, 3), (3, 1), (2, 4), (4, 2)] ∧
      convEdges 9 (Ty.structT [3]) (Ty.structT [1, 2]) =
        Except.error "failed assertion" := by
  constructor
  · have h := claim_C9.1 9 (Ty.structT [3, 4]) (Ty.structT [1, 2])
      [1, 2] [3, 4] rfl rfl rfl
    simpa using h
  · exact claim_C9.2 9 (Ty.structT [3]) (Ty.structT [1, 2])
      [1, 2] [3] rfl rfl (by decide)

/-- Quieting scenario: unreachable named struct type (node 1) with an
unreachable field (node 2).  No use edges at all; the type owns the
field. -/
def gQuiet1 : Graph :=
  ⟨[⟨1, OKind.typeK, "u", false, false, true⟩,
    ⟨2, OKind.varK, "w", true, false, true⟩],
   [], [(1, 2)]⟩

/-- Quieting scenario: reachable (exported) named struct type (node 1)
with an unreachable field (node 2). -/
def gQuiet2 : Graph :=
  ⟨[⟨1, OKind.typeK, "B", false, false, true⟩,
    ⟨2, OKind.varK, "y", true, false, true⟩],
   [(0, 1)], [(1, 2)]⟩

/-- Counterexample for C2: the claim states that quiet nodes are excluded
from the final report entirely (neither Used nor Unused).  In `gCquiet`
(see its doc comment for the originating unit), field x (node 2) is an
`owns`-descendant of the unseen type a, hence quiet — yet it is seen
through the conversion link from the reachable field y, and
`graph.results` checks `n.seen` before `n.quiet`, so node 2 is reported
Used.  The conversion edges of that graph are exactly the output of the
conversion rule, as the first conjunct records. -/
theorem claim_C2_cex :
    convEdges 5 (Ty.namedT [] (Ty.structT [4])) (Ty.namedT [] (Ty.structT [2])) =
        Except.ok [(2, 4), (4, 2)] ∧
      2 ∈ quietOf gCquiet (seenOf gCquiet.uses) ∧
      2 ∈ (results gCquiet).1 := by
  refine ⟨rfl, ?_, ?_⟩ <;> decide

/-- C2 as amended: after coloring, every `owns`-descendant (recursively)
of a node that is not seen is marked quiet; quiet nodes that are *not
seen* are excluded from the final report entirely (a node both seen and
quiet is still reported Used); consequently an unreachable field of an
unreachable named struct type does not appear in Unused (`gQuiet1`),
while an unreachable field of a reachable named struct type does appear
in Unused (`gQuiet2`). -/
theorem claim_C2_amended :
    (∀ (g : Graph) (n : GNode) (c v : Nat), n ∈ g.nodes →
      n.id ∉ seenOf g.uses → (n.id, c) ∈ g.owns → Reach g.owns c v →
      v ∈ quietOf g (seenOf g.uses)) ∧
    (∀ (g : Graph) (x : Nat), x ∈ quietOf g (seenOf g.uses) →
      x ∉ seenOf g.uses → x ∉ (results g).1 ∧ x ∉ (results g).2) ∧
    results gQuiet1 = ([], [1]) ∧
    results gQuiet2 = ([1], [2]) := by
  refine ⟨?_, fun _ _ hq hns => not_reported_of_quiet_unseen hq hns,
    by decide, by decide⟩
  intro g n c v hn hunseen hc hreach
  exact quiet_of_unseen_owner hn hunseen hc hreach

/-- Witness for the amended C2 on `gQuiet1`: the field (node 2) of the
unreachable type (node 1) is quiet and reported in neither list. -/
theorem claim_C2_witness :
    2 ∈ quietOf gQuiet1 (seenOf gQuiet1.uses) ∧
      2 ∉ (results gQuiet1).1 ∧ 2 ∉ (results gQuiet1).2 := by
  have hq := claim_C2_amended.1 gQuiet1 ⟨1, OKind.typeK, "u", false, false, true⟩
    2 2 (by decide) (by decide) (by decide) (Reach.refl 2)
  exact ⟨hq, claim_C2_amended.2.1 gQuiet1 2 hq (by decide)⟩

/-- Witness graph for the constant-group claim: the ring of the group
`const ( a; b; c )` (ids 1, 2, 3) plus an external reference from Root
to b. -/
def gW3 : Graph := ⟨[], [(0, 2), (1, 2), (2, 3), (3, 1)], []⟩

/-- C3: the constants of one lexical group, excluding blank-named ones
(which neither join nor break the ring), are linked into a single
use-edge cycle, so in any graph containing those ring edges, once one
non-blank member is reachable every non-blank member of the group is
reachable. -/
theorem claim_C3 :
    (∀ group : List (Nat × String),
      ringEdges group = ringEdges (group.filter (fun p => !(p.2 == "_")))) ∧
    (∀ (group : List (Nat × String)) (g : Graph) (i j : Nat) (ni nj : String),
      (i, ni) ∈ group → (j, nj) ∈ group → ni ≠ "_" → nj ≠ "_" →
      (∀ e ∈ ringEdges group, e ∈ g.uses) →
      i ∈ seenOf g.uses → j ∈ seenOf g.uses) := by
  refine ⟨ringEdges_filter_blank, ?_⟩
  intro group g i j ni nj hi hj hni hnj hsub hseen
  exact seenOf_reach_closed hseen
    (Reach.mono hsub (ring_connect (mem_ysOf hi hni) (mem_ysOf hj hnj)))

/-- Witness for C3 on `gW3`: Root references b of the group a, b, c, and
both a and c become seen. -/
theorem claim_C3_witness :
    (1 : Nat) ∈ seenOf gW3.uses ∧ (3 : Nat) ∈ seenOf gW3.uses := by
  constructor
  · exact claim_C3.2 [(1, "a"), (2, "b"), (3, "c")] gW3 2 1 "b" "a"
      (by decide) (by decide) (by decide) (by decide) (by decide) (by decide)
  · exact claim_C3.2 [(1, "a"), (2, "b"), (3, "c")] gW3 2 3 "b" "c"
      (by decide) (by decide) (by decide) (by decide) (by decide) (by decide)

/-- Conversion scenario graph, assembled from the builder rules:

    package pkg
    type a struct { x int }   // [2] with field x [4]
    type b struct { y int }   // [3] with field y [5]
    func F(p a) b { return b(p) }  // [1], exported, param p [6]

Use edges: Root uses exported F (0,1); F uses its parameter (1,6) which
uses its type a (6,2); F reads the converted-to type b (1,3); the
conversion b(p) links the fields: (4,5) and (5,4) (`convEdges`, tied in
`claim_C4`).  Owns: a owns x, b owns y, F owns p.  Nothing else
references x or y. -/
def gConv : Graph :=
  ⟨[⟨1, OKind.funcK, "F", false, false, true⟩,
    ⟨2, OKind.typeK, "a", false, false, true⟩,
    ⟨3, OKind.typeK, "b", false, false, true⟩,
    ⟨4, OKind.varK, "x", true, false, true⟩,
    ⟨5, OKind.varK, "y", true, false, true⟩,
    ⟨6, OKind.varK, "p", false, true, true⟩],
   [(0, 1), (1, 6), (6, 2), (1, 3), (4, 5), (5, 4)],
   [(2, 4), (3, 5), (1, 6)]⟩

/-- C4: at a struct-to-struct conversion with equal field counts, field
i of each struct is marked used by the corresponding field of the other
struct — every emitted edge runs between the two field lists, never from
Root (0) or the converting context — and a pair of fields whose only
incoming use edges come from each other is never promoted to seen, so
with nothing else referencing them both end up Unused, as the concrete
scenario `gConv` shows. -/
theorem claim_C4 :
    (∀ (byId : Nat) (dst src : Ty) (fs fd : List Nat),
      coreType (derefT src) = Ty.structT fs →
      coreType (derefT dst) = Ty.structT fd →
      fs.length = fd.length →
      0 ∉ fs ++ fd → byId ∉ fs ++ fd →
      ∃ es, convEdges byId dst src = Except.ok es ∧
        (∀ p ∈ List.zip fs fd, (p.1, p.2) ∈ es ∧ (p.2, p.1) ∈ es) ∧
        (∀ e ∈ es, (e.1 ∈ fs ++ fd) ∧ (e.2 ∈ fs ++ fd) ∧
          e.1 ≠ 0 ∧ e.1 ≠ byId)) ∧
    (∀ (es2 : List (Nat × Nat)) (x y : Nat), x ≠ 0 → y ≠ 0 →
      (∀ e ∈ es2, (e.2 = x ∨ e.2 = y) → (e.1 = x ∨ e.1 = y)) →
      x ∉ seenOf es2 ∧ y ∉ seenOf es2) ∧
    convEdges 1 (Ty.namedT [] (Ty.structT [5])) (Ty.namedT [] (Ty.structT [4])) =
      Except.ok [(4, 5), (5, 4)] ∧
    results gConv = ([1, 2, 3], [4, 5]) := by
  refine ⟨?_, ?_, rfl, by decide⟩
  · intro byId dst src fs fd hs hd hlen h0 hby
    refine ⟨(List.zip fs fd).flatMap (fun p => [(p.1, p.2), (p.2, p.1)]),
      ?_, ?_, ?_⟩
    · simp only [convEdges, hs, hd, assertGo, hlen, beq_self_eq_true, if_true]
    · intro p hp
      constructor
      · exact List.mem_flatMap.mpr ⟨p, hp, by simp⟩
      · exact List.mem_flatMap.mpr ⟨p, hp, by simp⟩
    · intro e he
      rcases List.mem_flatMap.mp he with ⟨p, hp, hep⟩
      rcases p with ⟨u, v⟩
      have huv := List.of_mem_zip hp
      simp only [List.mem_cons, List.mem_singleton] at hep
      have hmem : (e.1 ∈ fs ++ fd) ∧ (e.2 ∈ fs ++ fd) := by
        rcases hep with rfl | rfl | hfalse
        · exact ⟨List.mem_append_left _ huv.1, List.mem_append_right _ huv.2⟩
        · exact ⟨List.mem_append_right _ huv.2, List.mem_append_left _ huv.1⟩
        · cases hfalse
      exact ⟨hmem.1, hmem.2, fun hc => h0 (hc ▸ hmem.1),
        fun hc => hby (hc ▸ hmem.1)⟩
  · intro es2 x y hx hy hin
    have hsafe : ∀ u v, Reach es2 u v → ¬(u = x ∨ u = y) → ¬(v = x ∨ v = y) := by
      intro u v hr
      induction hr with
      | refl => exact id
      | head hab _ ih =>
        intro hu
        apply ih
        intro hb
        exact hu (hin _ hab hb)
    constructor
    · intro hc
      exact hsafe 0 x (seenOf_sound hc)
        (fun h => h.elim (fun h1 => hx h1.symm) (fun h1 => hy h1.symm))
        (Or.inl rfl)
    · intro hc
      exact hsafe 0 y (seenOf_sound hc)
        (fun h => h.elim (fun h1 => hx h1.symm) (fun h1 => hy h1.symm))
        (Or.inr rfl)

/-- Witness for C4 on the concrete conversion scenario: neither linked
field is seen. -/
theorem claim_C4_witness :
    (4 : Nat) ∉ seenOf gConv.uses ∧ (5 : Nat) ∉ seenOf gConv.uses :=
  claim_C4.2.1 gConv.uses 4 5 (by decide) (by decide) (by decide)

/-- Resolution context for the C5 counterexample: object 2 is a
package-level variable declared in a `_test.go` file; every other object
(in particular the writing function, object 1) is declared in a non-test
file. -/
def ctxC5 : Ctx := fun n =>
  if n = 2 then ⟨true, true, true⟩ else ⟨true, false, false⟩

/-- Counterexample for C5: the claim allows a use edge for an assignment
target only for field writes and for writes from within a designated
test context.  But `graph.write` tests the file of the *variable's
declaration position* (`g.pass.Fset.File(obj.Pos()).Name()`), not the
write site: here function 1 is declared in a non-test file — so the
assignment inside its body is not a write from a test context — yet
writing the test-file-declared package-level variable 2 emits the use
edge (1,2). -/
theorem claim_C5_cex :
    writeE ctxC5 (WExpr.ident 2) 1 = Except.ok [(1, 2)] ∧
      (ctxC5 1).declFileTest = false ∧
      (ctxC5 2).isGlobal = true := by
  refine ⟨rfl, rfl, rfl⟩

/-- Resolution context for spec scenario 2: `var x int` (object 2) is a
package-level variable declared in a non-test file. -/
def ctxScen2 : Ctx := fun _ => ⟨true, true, false⟩

/-- Spec scenario 2: `var x int` (node 2) and `func init() { x = 5 }`
(node 1); the only use edge is Root's edge to init, since the write
emits nothing. -/
def gScen2 : Graph :=
  ⟨[⟨1, OKind.funcK, "init", false, false, true⟩,
    ⟨2, OKind.varK, "x", false, false, true⟩],
   [(0, 1)], []⟩

/-- C5 as amended: an assignment target does not emit a use edge, except
that (a) writing to a field (including through an implicit embedding
chain) counts as a read/use, and (b) writing to a package-level variable
*whose declaration position lies in a test file* counts as a use,
regardless of where the write occurs; in particular a package-level
variable declared outside test files that is only ever written and never
read is classified Unused (scenario `gScen2`). -/
theorem claim_C5_amended :
    (∀ (ctx : Ctx) (obj byId : Nat),
      writeE ctx (WExpr.ident obj) byId =
        Except.ok (if (ctx obj).declFileTest && (ctx obj).isGlobal
          then useE ctx obj byId else [])) ∧
    (∀ (ctx : Ctx) (x : WExpr) (sd : Option (List Nat × Nat)) (byId : Nat),
      writeE ctx (WExpr.sel x sd) byId =
        Except.ok (readE ctx (WExpr.sel x sd) byId)) ∧
    funcDeclRootEdge ⟨"init", false, "pkg", "example.com/pkg", false, false⟩ = true ∧
    writeE ctxScen2 (WExpr.ident 2) 1 = Except.ok [] ∧
    results gScen2 = ([1], [2]) := by
  refine ⟨?_, fun _ _ _ _ => rfl, by decide, rfl, by decide⟩
  intro ctx obj byId
  cases h1 : (ctx obj).declFileTest <;> cases h2 : (ctx obj).isGlobal <;>
    simp [writeE, h1, h2]

/-- Counterexample for C6: the claim says the declaration rule adds Root
edges exactly to exported top-level types/functions/variables/constants,
the init function, and main in the entry unit.  But the `init` and
`main` branches of `graph.decl` test only the declared name, not whether
a receiver is present, so an unexported *method* named `init` also
receives a Root edge; and a function named `_` receives a Root edge via
the blank-identifier rule, though it is in none of the claim's
categories. -/
theorem claim_C6_cex :
    funcDeclRootEdge ⟨"init", true, "pkg", "example.com/pkg", false, false⟩ = true ∧
      funcDeclRootEdge ⟨"_", false, "pkg", "example.com/pkg", false, false⟩ = true ∧
      isExported "init" = false ∧ isExported "_" = false := by
  decide

/-- C6 as amended: in a unit that is not the runtime package and for
declarations without cgo-export directives, the declaration rule adds a
Root use edge exactly to exported functions without a receiver, any
function *or method* named init, any function or method named main when
the unit is package main, and any function named with the blank
identifier; an exported method never receives a Root edge by this rule;
and exported package-level types, variables and constants receive the
Root edge (a blank-named constant is handled by the blank rule
instead, but blank names are never exported). -/
theorem claim_C6_amended :
    (∀ d : FuncDeclD, d.pkgPath ≠ "runtime" → d.hasCgoExportDoc = false →
      (funcDeclRootEdge d = true ↔
        (isExported d.name = true ∧ d.hasRecv = false) ∨
        (isExported d.name = false ∧ d.name = "init") ∨
        (isExported d.name = false ∧ d.name = "main" ∧ d.pkgName = "main") ∨
        d.name = "_")) ∧
    (∀ d : FuncDeclD, isExported d.name = true → d.hasRecv = true →
      d.hasCgoExportDoc = false → funcDeclRootEdge d = false) ∧
    (∀ (name : String) (isG : Bool),
      constDeclRootEdge name isG = (isExported name && isG) ∧
      typeDeclRootEdge name isG = (isExported name && isG) ∧
      varDeclRootEdge name isG = (isExported name && isG)) := by
  refine ⟨?_, ?_, ?_⟩
  · intro d hpath hcgo
    have hrt : (d.pkgPath == "runtime") = false := by
      simp [hpath]
    by_cases hexp : isExported d.name = true
    · have hbl : d.name ≠ "_" := fun hc => by
        rw [hc] at hexp
        exact absurd hexp (by decide)
      cases hr : d.hasRecv <;>
        simp [funcDeclRootEdge, hexp, hcgo, hr, hbl, hrt]
    · rw [Bool.not_eq_true] at hexp
      by_cases hinit : d.name = "init"
      · simp [funcDeclRootEdge, hexp, hcgo, hinit, hrt,
          show isExported "init" = false from rfl]
      · by_cases hmain : d.name = "main"
        · by_cases hpkg : d.pkgName = "main"
          · simp [funcDeclRootEdge, hexp, hcgo, hinit, hmain, hpkg, hrt,
              show isExported "main" = false from rfl]
          · simp [funcDeclRootEdge, hexp, hcgo, hinit, hmain, hpkg, hrt]
        · by_cases hbl : d.name = "_"
          · simp [funcDeclRootEdge, hexp, hcgo, hinit, hmain, hbl, hrt]
          · simp [funcDeclRootEdge, hexp, hcgo, hinit, hmain, hbl, hrt]
  · intro d hexp hrecv hcgo
    have hbl : d.name ≠ "_" := fun hc => by
      rw [hc] at hexp
      exact absurd hexp (by decide)
    simp [funcDeclRootEdge, hexp, hrecv, hcgo, hbl]
  · intro name isG
    refine ⟨?_, rfl, rfl⟩
    by_cases hbl : name = "_"
    · subst hbl
      simp [constDeclRootEdge, isExported]
    · simp [constDeclRootEdge, hbl]

/-- Witness for the amended C6: an exported function gets the Root edge,
an exported method does not. -/
theorem claim_C6_witness :
    funcDeclRootEdge ⟨"Foo", false, "pkg", "example.com/pkg", false, false⟩ = true ∧
      funcDeclRootEdge ⟨"Foo", true, "pkg", "example.com/pkg", false, false⟩ = false := by
  constructor
  · exact (claim_C6_amended.1 ⟨"Foo", false, "pkg", "example.com/pkg", false, false⟩
      (by decide) rfl).mpr (Or.inl ⟨by decide, rfl⟩)
  · exact claim_C6_amended.2.1 ⟨"Foo", true, "pkg", "example.com/pkg", false, false⟩
      (by decide) rfl rfl

/-- The no-copy sentinel type shape: a named type with empty struct
underlying and exactly one zero-argument zero-result method `Lock`. -/
def noCopyTy : Ty := Ty.namedT [⟨"Lock", 0, 0⟩] (Ty.structT [])

/-- Field `mu noCopy` (node 2) of the unexported struct type s
(node 1). -/
def muField : FieldD := ⟨2, "mu", noCopyTy⟩

/-- Counterexample graph for C7: `type s struct { mu noCopy }` where s
is unexported and never referenced.  The only edges are the ones
`graph.namedType` emits for the field. -/
def gC7 : Graph :=
  ⟨[⟨1, OKind.typeK, "s", false, false, true⟩,
    ⟨2, OKind.varK, "mu", true, false, true⟩],
   namedFieldUses 1 muField, namedFieldOwns 1 muField⟩

/-- Counterexample for C7: the claim says a no-copy sentinel field is
always classified Used, even with zero accesses.  But the rule marks the
field used *by its owning type* (`g.use(obj, typ)`), not by Root: when
the owning type is unreachable, the field is not seen, is quieted, and
is reported in neither list — in particular it is not Used. -/
theorem claim_C7_cex :
    isNoCopyType noCopyTy = true ∧
      namedFieldUses 1 muField = [(1, 2)] ∧
      (results gC7).1 = [] ∧
      2 ∉ (results gC7).1 ∧ 2 ∉ (results gC7).2 := by
  decide

/-- Witness graph for the amended C7: the same type s, now reachable
from Root. -/
def gW7 : Graph :=
  ⟨[⟨1, OKind.typeK, "s", false, false, true⟩,
    ⟨2, OKind.varK, "mu", true, false, true⟩],
   (0, 1) :: namedFieldUses 1 muField, namedFieldOwns 1 muField⟩

/-- C7 as amended: a field of a named struct whose type matches the
no-copy sentinel shape is marked used by its owning type even with zero
accesses, so it is classified Used whenever the owning type is
reachable; if the owning type is unreachable the field is quieted and
reported in neither list. -/
theorem claim_C7_amended :
    (∀ (typId : Nat) (f : FieldD), isNoCopyType f.ty = true →
      (typId, f.id) ∈ namedFieldUses typId f) ∧
    (∀ (g : Graph) (typId fid : Nat), (typId, fid) ∈ g.uses →
      typId ∈ seenOf g.uses → fid ∈ seenOf g.uses) ∧
    (∀ (g : Graph) (n : GNode), n ∈ g.nodes → keepNode n = true →
      n.id ∈ seenOf g.uses → n.id ∈ (results g).1) := by
  refine ⟨?_, fun g typId fid hedge hseen => seenOf_closed hedge hseen,
    fun g n hn hkeep hseen => used_of_seen_kept hn hkeep hseen⟩
  intro typId f hno
  unfold namedFieldUses
  rw [hno]
  exact List.mem_append_right _ (by simp)

/-- Witness for the amended C7 on `gW7`: with the owning type reachable,
the access-free sentinel field is reported Used. -/
theorem claim_C7_witness : (2 : Nat) ∈ (results gW7).1 := by
  have hseen : (2 : Nat) ∈ seenOf gW7.uses := by
    have hedge : ((1 : Nat), (2 : Nat)) ∈ gW7.uses := by
      have h := claim_C7_amended.1 1 muField (by decide)
      exact List.mem_cons_of_mem _ h
    exact claim_C7_amended.2.1 gW7 1 2 hedge (by decide)
  exact claim_C7_amended.2.2 gW7 ⟨2, OKind.varK, "mu", true, false, true⟩
    (by decide) (by decide) hseen

/-- Counterexample graph for C8: `type s struct { _ int }` where s is
unexported and never referenced; node 2 is the blank field. -/
def gC8 : Graph :=
  ⟨[⟨1, OKind.typeK, "s", false, false, true⟩,
    ⟨2, OKind.varK, "_", true, false, true⟩],
   namedFieldUses 1 ⟨2, "_", Ty.basicT⟩,
   namedFieldOwns 1 ⟨2, "_", Ty.basicT⟩⟩

/-- Counterexample for C8: the claim says every blank-named declaration
is classified Used unconditionally, regardless of graph connectivity.
But a blank-named struct field is used *by its owning type*
(`g.use(obj, typ)` in `graph.namedType`), so when the owning struct type
is unreachable the blank field is quieted and classified neither Used
nor Unused. -/
theorem claim_C8_cex :
    namedFieldUses 1 ⟨2, "_", Ty.basicT⟩ = [(1, 2)] ∧
      2 ∉ (results gC8).1 ∧ 2 ∉ (results gC8).2 := by
  decide

/-- Witness graph for the amended C8: a top-level blank constant
(node 7). -/
def gW8 : Graph :=
  ⟨[⟨7, OKind.constK, "_", false, false, true⟩],
   constNameEdges 0 7 "_" true, []⟩

/-- C8 as amended: a blank-named declaration is marked used by its
declaring context: top-level blank constants (and variables and types,
which share the `g.use(obj, by)` call with `by = nil`, i.e. Root) and
blank-named functions get a Root edge and are therefore always
classified Used; a blank-named struct field is used by its owning type,
so it is classified Used exactly when the owner is reachable, and is
quieted (reported in neither list) when the owner is unreachable. -/
theorem claim_C8_amended :
    (∀ (byId id : Nat) (isG : Bool),
      constNameEdges byId id "_" isG = [(byId, id)]) ∧
    (∀ (typId : Nat) (f : FieldD), f.name = "_" →
      (typId, f.id) ∈ namedFieldUses typId f) ∧
    (∀ d : FuncDeclD, d.name = "_" → funcDeclRootEdge d = true) ∧
    (∀ (es : List (Nat × Nat)) (id : Nat), (0, id) ∈ es → id ∈ seenOf es) ∧
    (∀ (g : Graph) (n : GNode), n ∈ g.nodes → keepNode n = true →
      (0, n.id) ∈ g.uses → n.id ∈ (results g).1) := by
  refine ⟨fun byId id isG => rfl, ?_, ?_, ?_, ?_⟩
  · intro typId f hbl
    unfold namedFieldUses
    rw [show (f.name == "_") = true from by simp [hbl]]
    exact List.mem_append_left _ (by simp)
  · intro d hbl
    simp [funcDeclRootEdge, hbl]
  · intro es id hedge
    exact seenOf_closed hedge (seenOf_root es)
  · intro g n hn hkeep hedge
    exact used_of_seen_kept hn hkeep (seenOf_closed hedge (seenOf_root g.uses))

/-- Witness for the amended C8 on `gW8`: a top-level blank constant is
reported Used. -/
theorem claim_C8_witness : (7 : Nat) ∈ (results gW8).1 :=
  claim_C8_amended.2.2.2.2 gW8 ⟨7, OKind.constK, "_", false, false, true⟩
    (by decide) (by decide) (by decide)

end UnusedGo
